import Mathlib

/-!
Verification of the `coreopts` option-declaration and matches layer
(`src/lib/mods/coreopts.rs`): a getopts-style wrapper that compiles option
descriptors into a grammar configuration, delegates tokenization to an
underlying grammar engine, and exposes a queryable `Matches` snapshot.

The registration builder (`CoreOptions`), the alias table (`short_to_long`),
and the query layer (`Matches`) are embedded directly from the source.
The underlying grammar engine (the `clap` crate) is not part of this
repository and is treated by the specification as an external collaborator;
it is modelled from the specification's collaborator contract (see
`engineLoop`).  Process termination on help/version/usage-error is modelled
by the `ParseOutcome.exit` constructor carrying the exit code and the text
written to standard output / standard error.

Rust `HashMap` insertion (last write wins) is modelled by prepending onto an
association list queried by first match; `Rc::get_mut(..).unwrap()` on the
shared alias table is modelled by a count (`tableShared`) of live `Matches`
handles cloned from the table: `get_mut` returns `None` (and `unwrap`
panics, modelled as `Option.none`) exactly when that count is positive.
-/

set_option autoImplicit false

namespace Coreopts

/-- Association-list lookup by string key; first match wins.  Models
`HashMap::get` over the prepend-on-insert representation used below. -/
def alookup {β : Type} (k : String) : List (String × β) → Option β
| [] => none
| (k2, v) :: rest => if k2 = k then some v else alookup k rest

/-- Boolean membership of a name in a list of names. -/
def hasName (nm : String) : List String → Bool
| [] => false
| x :: rest => x == nm || hasName nm rest

/-- Append value `v` to the entry for key `nm`, creating the entry at the
end if absent.  Models the grammar engine accumulating one more captured
occurrence value for an option, in encounter order. -/
def addValue (nm v : String) : List (String × List String) → List (String × List String)
| [] => [(nm, [v])]
| (k, vs) :: rest => if k = nm then (k, vs ++ [v]) :: rest else (k, vs) :: addValue nm v rest

/-- One compiled option of the grammar configuration: the fields set by the
`clap::Arg` builder calls made in `optcommon` and the per-kind closures of
`optflag`, `optflagopt`, `optflagmulti`, `optopt`, `optmulti`, `optflags`,
plus the hidden positional `ARGS` capture added by `CoreOptions::new`. -/
structure ArgSpec where
  name : String
  short : Option String := none
  long : Option String := none
  aliases : List String := []
  takesValue : Bool := false
  multiple : Bool := false
  minValuesZero : Bool := false
  allowHyphen : Bool := false
  positional : Bool := false
  hidden : Bool := false
  help : String := ""
  valueName : Option String := none
deriving DecidableEq

/-- The success table returned by the grammar engine: which canonical names
occurred, and the captured values per canonical name in encounter order.
This is the shape the specification assigns to the engine's success
outcome (presence plus captured values, keyed by canonical option name). -/
structure ArgMatches where
  present : List String
  values : List (String × List String)
deriving DecidableEq

/-- Embeds `ArgMatches::is_present` of the engine result. -/
def ArgMatches.is_present (am : ArgMatches) (nm : String) : Bool :=
  hasName nm am.present

/-- Embeds `ArgMatches::value_of` of the engine result: the first captured
value for the given canonical name, if any. -/
def ArgMatches.value_of (am : ArgMatches) (nm : String) : Option String :=
  (alookup nm am.values).bind List.head?

/-- Mark a canonical name as present (idempotent). -/
def ArgMatches.addPresent (am : ArgMatches) (nm : String) : ArgMatches :=
  if hasName nm am.present then am else { am with present := am.present ++ [nm] }

/-- Record one captured value for a canonical name. -/
def ArgMatches.addVal (am : ArgMatches) (nm v : String) : ArgMatches :=
  { am with values := addValue nm v am.values }

/-- Mark present and record a value in one step (used for positionals). -/
def ArgMatches.record (am : ArgMatches) (nm v : String) : ArgMatches :=
  (am.addPresent nm).addVal nm v

/-- Embeds `struct Matches`: the free (positional) arguments, the engine's
raw result, and the shared short-name alias table. -/
structure Matches where
  free : List String
  inner : ArgMatches
  short_to_long : List (String × String)
deriving DecidableEq

/-- Embeds `Matches::convert_name`: a queried name is translated through the
alias table only when its UTF-8 byte length (Rust `str::len`) is exactly 1;
otherwise, and on a failed lookup, the name is used unchanged. -/
def Matches.convert_name (m : Matches) (nm : String) : String :=
  if nm.utf8ByteSize ≠ 1 then nm else (alookup nm m.short_to_long).getD nm

/-- Embeds `Matches::opt_present`. -/
def Matches.opt_present (m : Matches) (nm : String) : Bool :=
  m.inner.is_present (m.convert_name nm)

/-- Embeds `Matches::opts_present`: true iff some name in the list is
present (the source loop short-circuits on the first hit). -/
def Matches.opts_present (m : Matches) (names : List String) : Bool :=
  names.any (fun nm => m.inner.is_present (m.convert_name nm))

/-- Embeds `Matches::opt_str`. -/
def Matches.opt_str (m : Matches) (nm : String) : Option String :=
  m.inner.value_of (m.convert_name nm)

/-- Embeds the fields of `HelpText` consumed by `CoreOptions` behavior: the
program name (used in usage-error reporting) and whether a version string
was supplied (which enables the automatic version flag).  The remaining
fields are display-only text, out of scope per the specification. -/
structure HelpText where
  name : String
  version : Option String := none
deriving DecidableEq

/-- Embeds `struct CoreOptions`: the accumulated grammar configuration, the
shared alias table, and the number of live `Matches` handles sharing the
table's reference count (0 until a successful `parse`). -/
structure CoreOptions where
  name : String
  hasVersion : Bool
  args : List ArgSpec
  short_to_long : List (String × String)
  tableShared : Nat
deriving DecidableEq

/-- Embeds `CoreOptions::new`: empty alias table, and the hidden positional
`ARGS` capture (index 1, multiple, hidden) always registered. -/
def CoreOptions.new (ht : HelpText) : CoreOptions :=
  { name := ht.name
    hasVersion := ht.version.isSome
    args := [{ name := "ARGS", positional := true, multiple := true, hidden := true }]
    short_to_long := []
    tableShared := 0 }

/-- Embeds `CoreOptions::optcommon`.  When the long name is non-empty it is
the canonical key; a non-empty short name is then additionally inserted
into the shared alias table, which requires exclusive access to the
reference-counted table (`Rc::get_mut(..).unwrap()` panics, modelled as
`none`, when a live `Matches` shares it).  With an empty long name, a
non-empty short name becomes the canonical key and the table is untouched.
With both names empty the source panics (`none`): no configuration is
produced. -/
def CoreOptions.optcommon (co : CoreOptions) (short_name long_name desc : String)
    (func : ArgSpec → ArgSpec) : Option CoreOptions :=
  if long_name ≠ "" then
    if short_name ≠ "" then
      if co.tableShared ≠ 0 then
        none
      else
        some { co with
          short_to_long := (short_name, long_name) :: co.short_to_long
          args := co.args ++
            [func { name := long_name, long := some long_name, short := some short_name,
                    help := desc, allowHyphen := true }] }
    else
      some { co with
        args := co.args ++
          [func { name := long_name, long := some long_name, help := desc, allowHyphen := true }] }
  else if short_name ≠ "" then
    some { co with
      args := co.args ++
        [func { name := short_name, short := some short_name, help := desc, allowHyphen := true }] }
  else
    none

/-- Embeds `CoreOptions::optflag`. -/
def CoreOptions.optflag (co : CoreOptions) (short_name long_name desc : String) :
    Option CoreOptions :=
  co.optcommon short_name long_name desc (fun a => a)

/-- Embeds `CoreOptions::optflagopt`: optional value, no hyphen values. -/
def CoreOptions.optflagopt (co : CoreOptions) (short_name long_name desc hint : String) :
    Option CoreOptions :=
  co.optcommon short_name long_name desc
    (fun a => { a with valueName := some hint, takesValue := true, minValuesZero := true,
                       allowHyphen := false })

/-- Embeds `CoreOptions::optflagmulti`: repeatable flag, no hyphen values. -/
def CoreOptions.optflagmulti (co : CoreOptions) (short_name long_name desc : String) :
    Option CoreOptions :=
  co.optcommon short_name long_name desc (fun a => { a with multiple := true, allowHyphen := false })

/-- Embeds `CoreOptions::optopt`: required single value. -/
def CoreOptions.optopt (co : CoreOptions) (short_name long_name desc hint : String) :
    Option CoreOptions :=
  co.optcommon short_name long_name desc (fun a => { a with takesValue := true, valueName := some hint })

/-- Embeds `CoreOptions::optmulti`: repeated value-taking option. -/
def CoreOptions.optmulti (co : CoreOptions) (short_name long_name desc hint : String) :
    Option CoreOptions :=
  co.optcommon short_name long_name desc
    (fun a => { a with multiple := true, takesValue := true, valueName := some hint })

/-- Embeds `CoreOptions::optflags`: the head of each list is the primary
short / long name passed to `optcommon`; the remaining names of both lists
become `clap` aliases of the compiled argument (and are never inserted into
the alias table). -/
def CoreOptions.optflags (co : CoreOptions) (short_names long_names : List String)
    (desc : String) : Option CoreOptions :=
  let sp : List String × String :=
    match short_names with
    | [] => ([], "")
    | x :: xs => (xs, x)
  let lp : List String × String :=
    match long_names with
    | [] => ([], "")
    | x :: xs => (xs, x)
  co.optcommon sp.2 lp.2 desc (fun a => { a with aliases := a.aliases ++ sp.1 ++ lp.1 })

/-- First-order description of one registration call, so that sequences of
registrations can be quantified over. -/
inductive RegOp where
| flag (s l d : String)
| flagopt (s l d h : String)
| flagmulti (s l d : String)
| opt (s l d h : String)
| multi (s l d h : String)
| flags (ss ls : List String) (d : String)
deriving DecidableEq

/-- Apply one registration call to the builder. -/
def applyOp (co : CoreOptions) : RegOp → Option CoreOptions
| RegOp.flag s l d => co.optflag s l d
| RegOp.flagopt s l d h => co.optflagopt s l d h
| RegOp.flagmulti s l d => co.optflagmulti s l d
| RegOp.opt s l d h => co.optopt s l d h
| RegOp.multi s l d h => co.optmulti s l d h
| RegOp.flags ss ls d => co.optflags ss ls d

/-- Run a sequence of registration calls, stopping at the first panic. -/
def runOps (co : CoreOptions) : List RegOp → Option CoreOptions
| [] => some co
| op :: rest =>
  match applyOp co op with
  | none => none
  | some co2 => runOps co2 rest

/-- The short name a registration call passes to `optcommon`. -/
def RegOp.primaryShort : RegOp → String
| RegOp.flag s _ _ => s
| RegOp.flagopt s _ _ _ => s
| RegOp.flagmulti s _ _ => s
| RegOp.opt s _ _ _ => s
| RegOp.multi s _ _ _ => s
| RegOp.flags ss _ _ => ss.headD ""

/-- The long name a registration call passes to `optcommon`. -/
def RegOp.primaryLong : RegOp → String
| RegOp.flag _ l _ => l
| RegOp.flagopt _ l _ _ => l
| RegOp.flagmulti _ l _ => l
| RegOp.opt _ l _ _ => l
| RegOp.multi _ l _ _ => l
| RegOp.flags _ ls _ => ls.headD ""

/-- Every name (short, long, or alias) supplied to a registration call. -/
def RegOp.namesOf : RegOp → List String
| RegOp.flag s l _ => [s, l]
| RegOp.flagopt s l _ _ => [s, l]
| RegOp.flagmulti s l _ => [s, l]
| RegOp.opt s l _ _ => [s, l]
| RegOp.multi s l _ _ => [s, l]
| RegOp.flags ss ls _ => ss ++ ls

/-- The alias-table pairs contributed by a sequence of registrations: one
pair per call whose primary short and primary long names are both
non-empty. -/
def tablePairs (ops : List RegOp) : List (String × String) :=
  ops.filterMap (fun op =>
    if op.primaryShort ≠ "" ∧ op.primaryLong ≠ "" then
      some (op.primaryShort, op.primaryLong)
    else none)

/-- True iff the token starts with two hyphen characters. -/
def startsDashDash (t : String) : Bool :=
  match t.data with
  | '-' :: '-' :: _ => true
  | _ => false

/-- True iff the token starts with a hyphen character. -/
def startsDash (t : String) : Bool :=
  match t.data with
  | '-' :: _ => true
  | _ => false

/-- Drop the first `n` characters of a token. -/
def strDrop (n : Nat) (t : String) : String :=
  String.mk (t.data.drop n)

/-- The four outcomes the source distinguishes when calling the grammar
engine (`get_matches_from_safe`): success, help requested, version
requested, or a usage error with a message. -/
inductive EngineResult where
| success (am : ArgMatches)
| helpRequested (text : String)
| versionRequested (text : String)
| usageError (msg : String)
deriving DecidableEq

/-- Modelled from the spec: terminal help-text rendering is out of scope
("terminal help-text rendering" is an external collaborator), so the help
text the engine emits is an unspecified constant. -/
def helpDisplayText : String := "help message"

/-- Modelled from the spec: version-text rendering is out of scope, so the
version text the engine emits is an unspecified constant. -/
def versionDisplayText : String := "version message"

/-- State of the engine's token walk: the table built so far, an option
seen whose value is still awaited, and whether a bare `--` has ended
option processing. -/
structure LoopSt where
  am : ArgMatches
  pending : Option ArgSpec
  noMore : Bool
deriving DecidableEq

/-- Result of consuming one token: either an early outcome (help, version,
usage error) or the next state. -/
inductive StepRes where
| halt (r : EngineResult)
| cont (st : LoopSt)
deriving DecidableEq

/-- Find the compiled argument matching a long-form token (by long name or
by one of its aliases, which function as hidden long names). -/
def findLong (args : List ArgSpec) (nm : String) : Option ArgSpec :=
  args.find? (fun a => a.long == some nm || a.aliases.contains nm)

/-- Find the compiled argument matching a short-form token. -/
def findShort (args : List ArgSpec) (nm : String) : Option ArgSpec :=
  args.find? (fun a => a.short == some nm)

/-- Modelled from the spec: how the engine reacts to one recognized option
occurrence — a repeated occurrence of a non-repeatable option is a usage
error; a value-taking option awaits its value; a plain flag is recorded
present. -/
def handleOpt (am : ArgMatches) (noMore : Bool) (t : String) (a : ArgSpec) : StepRes :=
  if !a.multiple && am.is_present a.name then
    StepRes.halt (EngineResult.usageError ("the argument " ++ t ++ " was provided more than once"))
  else if a.takesValue then
    StepRes.cont ⟨am.addPresent a.name, some a, noMore⟩
  else
    StepRes.cont ⟨am.addPresent a.name, none, noMore⟩

/-- Modelled from the spec: classification of one raw token by the grammar
engine (the `clap` crate, an external collaborator consumed as a black
box).  A `--`-prefixed token selects an option by long name or alias; a
`-`-prefixed token selects by short name; the automatic help and version
flags are intercepted; an unrecognized option token is a usage error; any
other token is a free (positional) argument captured under `ARGS`. -/
def classify (args : List ArgSpec) (hv : Bool) (am : ArgMatches) (noMore : Bool)
    (t : String) : StepRes :=
  if noMore then
    StepRes.cont ⟨am.record "ARGS" t, none, noMore⟩
  else if t == "--" then
    StepRes.cont ⟨am, none, true⟩
  else if startsDashDash t then
    match findLong args (strDrop 2 t) with
    | some a => handleOpt am noMore t a
    | none =>
      if strDrop 2 t == "help" then StepRes.halt (EngineResult.helpRequested helpDisplayText)
      else if strDrop 2 t == "version" && hv then
        StepRes.halt (EngineResult.versionRequested versionDisplayText)
      else StepRes.halt (EngineResult.usageError ("unexpected argument " ++ t))
  else if startsDash t && t != "-" then
    match findShort args (strDrop 1 t) with
    | some a => handleOpt am noMore t a
    | none =>
      if strDrop 1 t == "h" then StepRes.halt (EngineResult.helpRequested helpDisplayText)
      else if strDrop 1 t == "V" && hv then
        StepRes.halt (EngineResult.versionRequested versionDisplayText)
      else StepRes.halt (EngineResult.usageError ("unexpected argument " ++ t))
  else
    StepRes.cont ⟨am.record "ARGS" t, none, noMore⟩

/-- Modelled from the spec: consuming one token.  A pending value-taking
option captures the token as its value, except that an option declared
without hyphen values never captures a hyphen-prefixed token: an
optional-value option then falls back to classifying the token, a
required-value option reports a missing value. -/
def step (args : List ArgSpec) (hv : Bool) (st : LoopSt) (t : String) : StepRes :=
  match st.pending with
  | some a =>
    if a.minValuesZero then
      if !a.allowHyphen && startsDash t then classify args hv st.am st.noMore t
      else StepRes.cont ⟨st.am.addVal a.name t, none, st.noMore⟩
    else
      if !a.allowHyphen && startsDash t then
        StepRes.halt (EngineResult.usageError ("the argument " ++ a.name ++ " requires a value"))
      else StepRes.cont ⟨st.am.addVal a.name t, none, st.noMore⟩
  | none => classify args hv st.am st.noMore t

/-- Modelled from the spec: outcome when the token stream ends — a still
pending required value is a usage error; a pending optional value is
simply absent. -/
def finalize (st : LoopSt) : EngineResult :=
  match st.pending with
  | some a =>
    if a.minValuesZero then EngineResult.success st.am
    else EngineResult.usageError ("the argument " ++ a.name ++ " requires a value")
  | none => EngineResult.success st.am

/-- Modelled from the spec: the engine's walk over the token stream. -/
def engineLoop (args : List ArgSpec) (hv : Bool) : LoopSt → List String → EngineResult
| st, [] => finalize st
| st, t :: rest =>
  match step args hv st t with
  | StepRes.halt r => r
  | StepRes.cont st2 => engineLoop args hv st2 rest

/-- Modelled from the spec: the grammar engine — compiled configuration
plus raw token vector in, one of the four outcomes out. -/
def runEngine (args : List ArgSpec) (hv : Bool) (argv : List String) : EngineResult :=
  engineLoop args hv ⟨⟨[], []⟩, none, false⟩ argv

/-- Outcome of `CoreOptions::parse`: either a `Matches` value returned to
the caller, or process termination with an exit code and the text written
to standard output / standard error. -/
inductive ParseOutcome where
| matches (m : Matches)
| exit (code : Nat) (stdoutText stderrText : String)
deriving DecidableEq

/-- Embeds the outcome classification in `CoreOptions::parse`: help or
version display prints the engine's text to standard output and exits 0;
any other engine error prints `name: message` (with a trailing newline,
from `eprintln`) to standard error and exits 1; success extracts the
`ARGS` captures as `free` and wraps the result with the shared alias
table. -/
def parseWith (co : CoreOptions) (res : EngineResult) : ParseOutcome :=
  match res with
  | EngineResult.helpRequested t => ParseOutcome.exit 0 t ""
  | EngineResult.versionRequested t => ParseOutcome.exit 0 t ""
  | EngineResult.usageError msg => ParseOutcome.exit 1 "" (co.name ++ ": " ++ msg ++ "\n")
  | EngineResult.success am =>
    ParseOutcome.matches
      { free := (alookup "ARGS" am.values).getD []
        inner := am
        short_to_long := co.short_to_long }

/-- Embeds `CoreOptions::parse`.  The first element of `args` is the
program name, skipped by the engine.  On success the alias table's
reference count gains one live `Matches` handle (the `Rc` clone stored in
the returned `Matches`). -/
def CoreOptions.parse (co : CoreOptions) (args : List String) :
    ParseOutcome × CoreOptions :=
  match parseWith co (runEngine co.args co.hasVersion (args.drop 1)) with
  | ParseOutcome.matches m =>
    (ParseOutcome.matches m, { co with tableShared := co.tableShared + 1 })
  | r => (r, co)

/-! ### Basic lemmas about the association-list and name-list helpers -/

theorem alookup_nil {β : Type} (k : String) : alookup k ([] : List (String × β)) = none := rfl

theorem alookup_cons {β : Type} (k k2 : String) (v : β) (rest : List (String × β)) :
    alookup k ((k2, v) :: rest) = if k2 = k then some v else alookup k rest := rfl

theorem alookup_append_none {β : Type} (k : String) (l1 l2 : List (String × β))
    (h : alookup k l1 = none) : alookup k (l1 ++ l2) = alookup k l2 := by
  induction l1 with
  | nil => rfl
  | cons p rest ih =>
    obtain ⟨k2, v⟩ := p
    by_cases hk : k2 = k
    · rw [alookup_cons, if_pos hk] at h
      exact absurd h (by simp)
    · rw [alookup_cons, if_neg hk] at h
      rw [List.cons_append, alookup_cons, if_neg hk]
      exact ih h

theorem alookup_eq_none_of_forall {β : Type} (k : String) (l : List (String × β))
    (h : ∀ p ∈ l, p.1 ≠ k) : alookup k l = none := by
  induction l with
  | nil => rfl
  | cons p rest ih =>
    obtain ⟨k2, v⟩ := p
    rw [alookup_cons, if_neg (h (k2, v) (by simp))]
    exact ih (fun q hq => h q (by simp [hq]))

theorem alookup_isSome_exists {β : Type} (k : String) (l : List (String × β))
    (h : (alookup k l).isSome = true) : ∃ p ∈ l, p.1 = k := by
  induction l with
  | nil => simp [alookup_nil] at h
  | cons p rest ih =>
    obtain ⟨k2, v⟩ := p
    by_cases hk : k2 = k
    · exact ⟨(k2, v), by simp, hk⟩
    · rw [alookup_cons, if_neg hk] at h
      obtain ⟨q, hq, hq1⟩ := ih h
      exact ⟨q, by simp [hq], hq1⟩

theorem hasName_iff_mem (nm : String) (l : List String) :
    hasName nm l = true ↔ nm ∈ l := by
  induction l with
  | nil => simp [hasName]
  | cons x rest ih =>
    simp only [hasName, Bool.or_eq_true, beq_iff_eq, ih, List.mem_cons]
    exact or_congr_left (by constructor <;> (intro h; exact h.symm))

/-! ### Lemmas about the registration builder -/

theorem optcommon_table (co co2 : CoreOptions) (s l d : String) (f : ArgSpec → ArgSpec)
    (h : co.optcommon s l d f = some co2) :
    co2.short_to_long =
      if s ≠ "" ∧ l ≠ "" then (s, l) :: co.short_to_long else co.short_to_long := by
  unfold CoreOptions.optcommon at h
  split at h
  · split at h
    · split at h
      · exact absurd h (by simp)
      · cases h
        simp_all
    · cases h
      simp_all
  · split at h
    · cases h
      simp_all
    · exact absurd h (by simp)

theorem optcommon_shared (co co2 : CoreOptions) (s l d : String) (f : ArgSpec → ArgSpec)
    (h : co.optcommon s l d f = some co2) : co2.tableShared = co.tableShared := by
  unfold CoreOptions.optcommon at h
  split at h
  · split at h
    · split at h
      · exact absurd h (by simp)
      · cases h; rfl
    · cases h; rfl
  · split at h
    · cases h; rfl
    · exact absurd h (by simp)

theorem optcommon_args (co co2 : CoreOptions) (s l d : String) (f : ArgSpec → ArgSpec)
    (hf : ∀ a, (f a).name = a.name)
    (h : co.optcommon s l d f = some co2) :
    ∀ a ∈ co2.args, a ∈ co.args ∨ (a.name = l ∧ l ≠ "") ∨ (a.name = s ∧ s ≠ "") := by
  unfold CoreOptions.optcommon at h
  split at h
  case isTrue hl =>
    split at h
    case isTrue hs =>
      split at h
      · exact absurd h (by simp)
      · cases h
        intro a ha
        simp only [List.mem_append, List.mem_singleton] at ha
        rcases ha with ha | ha
        · exact Or.inl ha
        · subst ha
          exact Or.inr (Or.inl ⟨hf _, hl⟩)
    case isFalse hs =>
      cases h
      intro a ha
      simp only [List.mem_append, List.mem_singleton] at ha
      rcases ha with ha | ha
      · exact Or.inl ha
      · subst ha
        exact Or.inr (Or.inl ⟨hf _, hl⟩)
  case isFalse hl =>
    split at h
    case isTrue hs =>
      cases h
      intro a ha
      simp only [List.mem_append, List.mem_singleton] at ha
      rcases ha with ha | ha
      · exact Or.inl ha
      · subst ha
        exact Or.inr (Or.inr ⟨hf _, hs⟩)
    case isFalse hs =>
      exact absurd h (by simp)

/-- The help text the registration call passes to `optcommon`. -/
def RegOp.descOf : RegOp → String
| RegOp.flag _ _ d => d
| RegOp.flagopt _ _ d _ => d
| RegOp.flagmulti _ _ d => d
| RegOp.opt _ _ d _ => d
| RegOp.multi _ _ d _ => d
| RegOp.flags _ _ d => d

/-- The per-kind argument-builder closure of the registration call. -/
def RegOp.funcOf : RegOp → ArgSpec → ArgSpec
| RegOp.flag _ _ _ => fun a => a
| RegOp.flagopt _ _ _ h => fun a =>
    { a with valueName := some h, takesValue := true, minValuesZero := true, allowHyphen := false }
| RegOp.flagmulti _ _ _ => fun a => { a with multiple := true, allowHyphen := false }
| RegOp.opt _ _ _ h => fun a => { a with takesValue := true, valueName := some h }
| RegOp.multi _ _ _ h => fun a =>
    { a with multiple := true, takesValue := true, valueName := some h }
| RegOp.flags ss ls _ => fun a => { a with aliases := a.aliases ++ ss.tail ++ ls.tail }

theorem applyOp_eq (co : CoreOptions) (op : RegOp) :
    applyOp co op = co.optcommon op.primaryShort op.primaryLong op.descOf op.funcOf := by
  cases op with
  | flag s l d => rfl
  | flagopt s l d hh => rfl
  | flagmulti s l d => rfl
  | opt s l d hh => rfl
  | multi s l d hh => rfl
  | flags ss ls d => cases ss <;> cases ls <;> rfl

theorem funcOf_name (op : RegOp) (a : ArgSpec) : (op.funcOf a).name = a.name := by
  cases op <;> rfl

theorem primaryShort_mem_namesOf (op : RegOp) (h : op.primaryShort ≠ "") :
    op.primaryShort ∈ op.namesOf := by
  cases op with
  | flag s l d => simp [RegOp.namesOf, RegOp.primaryShort]
  | flagopt s l d hh => simp [RegOp.namesOf, RegOp.primaryShort]
  | flagmulti s l d => simp [RegOp.namesOf, RegOp.primaryShort]
  | opt s l d hh => simp [RegOp.namesOf, RegOp.primaryShort]
  | multi s l d hh => simp [RegOp.namesOf, RegOp.primaryShort]
  | flags ss ls d =>
    cases ss with
    | nil => exact absurd rfl h
    | cons x xs => simp [RegOp.namesOf, RegOp.primaryShort]

theorem primaryLong_mem_namesOf (op : RegOp) (h : op.primaryLong ≠ "") :
    op.primaryLong ∈ op.namesOf := by
  cases op with
  | flag s l d => simp [RegOp.namesOf, RegOp.primaryLong]
  | flagopt s l d hh => simp [RegOp.namesOf, RegOp.primaryLong]
  | flagmulti s l d => simp [RegOp.namesOf, RegOp.primaryLong]
  | opt s l d hh => simp [RegOp.namesOf, RegOp.primaryLong]
  | multi s l d hh => simp [RegOp.namesOf, RegOp.primaryLong]
  | flags ss ls d =>
    cases ls with
    | nil => exact absurd rfl h
    | cons x xs => simp [RegOp.namesOf, RegOp.primaryLong]

theorem applyOp_table (co co2 : CoreOptions) (op : RegOp) (h : applyOp co op = some co2) :
    co2.short_to_long =
      if op.primaryShort ≠ "" ∧ op.primaryLong ≠ "" then
        (op.primaryShort, op.primaryLong) :: co.short_to_long
      else co.short_to_long := by
  rw [applyOp_eq] at h
  exact optcommon_table _ _ _ _ _ _ h

theorem applyOp_shared (co co2 : CoreOptions) (op : RegOp) (h : applyOp co op = some co2) :
    co2.tableShared = co.tableShared := by
  rw [applyOp_eq] at h
  exact optcommon_shared _ _ _ _ _ _ h

theorem applyOp_args (co co2 : CoreOptions) (op : RegOp) (h : applyOp co op = some co2) :
    ∀ a ∈ co2.args, a ∈ co.args ∨ a.name ∈ op.namesOf := by
  rw [applyOp_eq] at h
  intro a ha
  rcases optcommon_args _ _ _ _ _ _ (funcOf_name op) h a ha with h1 | ⟨h2, hne⟩ | ⟨h3, hne⟩
  · exact Or.inl h1
  · exact Or.inr (h2 ▸ primaryLong_mem_namesOf op hne)
  · exact Or.inr (h3 ▸ primaryShort_mem_namesOf op hne)

theorem runOps_append (co : CoreOptions) (ops1 ops2 : List RegOp) :
    runOps co (ops1 ++ ops2) = (runOps co ops1).bind (fun c => runOps c ops2) := by
  induction ops1 generalizing co with
  | nil => rfl
  | cons op rest ih =>
    simp only [List.cons_append, runOps]
    cases applyOp co op with
    | none => rfl
    | some c2 => exact ih c2

theorem runOps_table (ops : List RegOp) (co co2 : CoreOptions)
    (h : runOps co ops = some co2) :
    co2.short_to_long = (tablePairs ops).reverse ++ co.short_to_long := by
  induction ops generalizing co with
  | nil =>
    cases h
    simp [tablePairs]
  | cons op rest ih =>
    simp only [runOps] at h
    cases happ : applyOp co op with
    | none => rw [happ] at h; exact absurd h (by simp)
    | some c2 =>
      rw [happ] at h
      have hrest := ih c2 h
      have htab := applyOp_table _ _ _ happ
      have hpairs : tablePairs (op :: rest) =
          (if op.primaryShort ≠ "" ∧ op.primaryLong ≠ "" then
            [(op.primaryShort, op.primaryLong)] else []) ++ tablePairs rest := by
        simp only [tablePairs, List.filterMap_cons]
        by_cases hc : op.primaryShort ≠ "" ∧ op.primaryLong ≠ "" <;> simp [hc]
      rw [hrest, htab, hpairs]
      by_cases hc : op.primaryShort ≠ "" ∧ op.primaryLong ≠ "" <;> simp [hc]

theorem runOps_shared (ops : List RegOp) (co co2 : CoreOptions)
    (h : runOps co ops = some co2) : co2.tableShared = co.tableShared := by
  induction ops generalizing co with
  | nil => cases h; rfl
  | cons op rest ih =>
    simp only [runOps] at h
    cases happ : applyOp co op with
    | none => rw [happ] at h; exact absurd h (by simp)
    | some c2 =>
      rw [happ] at h
      rw [ih c2 h, applyOp_shared _ _ _ happ]

theorem runOps_args (ops : List RegOp) (co co2 : CoreOptions)
    (h : runOps co ops = some co2) :
    ∀ a ∈ co2.args, a ∈ co.args ∨ ∃ op ∈ ops, a.name ∈ op.namesOf := by
  induction ops generalizing co with
  | nil =>
    cases h
    intro a ha
    exact Or.inl ha
  | cons op rest ih =>
    simp only [runOps] at h
    cases happ : applyOp co op with
    | none => rw [happ] at h; exact absurd h (by simp)
    | some c2 =>
      rw [happ] at h
      intro a ha
      rcases ih c2 h a ha with h1 | ⟨op2, hop2, hn⟩
      · rcases applyOp_args _ _ _ happ a h1 with h2 | hn
        · exact Or.inl h2
        · exact Or.inr ⟨op, by simp, hn⟩
      · exact Or.inr ⟨op2, by simp [hop2], hn⟩

theorem tablePairs_mem (ops : List RegOp) (p : String × String) (h : p ∈ tablePairs ops) :
    ∃ op ∈ ops, p.1 = op.primaryShort ∧ p.2 = op.primaryLong ∧
      op.primaryShort ≠ "" ∧ op.primaryLong ≠ "" := by
  simp only [tablePairs, List.mem_filterMap] at h
  obtain ⟨op, hop, hp⟩ := h
  split at hp
  case isTrue hcond =>
    cases hp
    exact ⟨op, hop, rfl, rfl, hcond.1, hcond.2⟩
  case isFalse => exact absurd hp (by simp)

/-! ### Lemmas about the parse adapter -/

theorem parse_matches (co co2 : CoreOptions) (argv : List String) (m : Matches)
    (h : co.parse argv = (ParseOutcome.matches m, co2)) :
    runEngine co.args co.hasVersion (argv.drop 1) = EngineResult.success m.inner ∧
    m.short_to_long = co.short_to_long ∧
    m.free = (alookup "ARGS" m.inner.values).getD [] ∧
    co2 = { co with tableShared := co.tableShared + 1 } := by
  unfold CoreOptions.parse at h
  cases hr : runEngine co.args co.hasVersion (argv.drop 1) with
  | success am =>
    rw [hr] at h
    simp only [parseWith] at h
    obtain ⟨h1, h2⟩ := Prod.mk.injEq .. ▸ h
    cases h1
    exact ⟨rfl, rfl, rfl, h2.symm⟩
  | helpRequested t =>
    rw [hr] at h
    simp only [parseWith] at h
    exact absurd h (by simp)
  | versionRequested t =>
    rw [hr] at h
    simp only [parseWith] at h
    exact absurd h (by simp)
  | usageError msg =>
    rw [hr] at h
    simp only [parseWith] at h
    exact absurd h (by simp)

theorem runOps_table_from_new (ht : HelpText) (ops : List RegOp) (co : CoreOptions)
    (h : runOps (CoreOptions.new ht) ops = some co) :
    co.short_to_long = (tablePairs ops).reverse := by
  have := runOps_table ops _ _ h
  simpa [CoreOptions.new] using this

/-! ### Claim theorems -/

/-- Shared concrete help text used to instantiate witnesses. -/
def wHt : HelpText := { name := "prog" }

/-- Shared fresh builder used to instantiate witnesses. -/
def wCo0 : CoreOptions := CoreOptions.new wHt

/-- C3: registering an option whose short and long names are both empty is
a construction-time fatal failure (the source panics, modelled as `none`)
for `optcommon` and for every public registration operation reaching it
with empty names; no partial configuration is produced (no builder state
is returned at all). -/
theorem C3_both_empty_names_panic :
    ∀ (co : CoreOptions) (d h : String) (f : ArgSpec → ArgSpec),
      co.optcommon "" "" d f = none ∧
      co.optflag "" "" d = none ∧
      co.optflagopt "" "" d h = none ∧
      co.optflagmulti "" "" d = none ∧
      co.optopt "" "" d h = none ∧
      co.optmulti "" "" d h = none ∧
      co.optflags [] [] d = none := by
  intro co d h f
  refine ⟨?_, ?_, ?_, ?_, ?_, ?_, ?_⟩ <;>
    simp [CoreOptions.optcommon, CoreOptions.optflag, CoreOptions.optflagopt,
      CoreOptions.optflagmulti, CoreOptions.optopt, CoreOptions.optmulti, CoreOptions.optflags]

/-- C4: when the grammar engine classifies the outcome as help-requested or
version-requested, `parse` terminates the process with exit code 0, the
engine's text on standard output and nothing on standard error, and no
`Matches` value is returned to the caller. -/
theorem C4_help_version_exit_zero (co : CoreOptions) (args : List String) (t : String)
    (h : runEngine co.args co.hasVersion (args.drop 1) = EngineResult.helpRequested t ∨
         runEngine co.args co.hasVersion (args.drop 1) = EngineResult.versionRequested t) :
    (co.parse args).1 = ParseOutcome.exit 0 t "" ∧
    ∀ m : Matches, (co.parse args).1 ≠ ParseOutcome.matches m := by
  unfold CoreOptions.parse
  rcases h with h | h <;> rw [h] <;> simp [parseWith]

/-- Witness for C4 at a concrete input: a fresh builder parsing
`--help`. -/
theorem C4_help_version_exit_zero_witness :
    (wCo0.parse ["prog", "--help"]).1 = ParseOutcome.exit 0 helpDisplayText "" ∧
    ∀ m : Matches, (wCo0.parse ["prog", "--help"]).1 ≠ ParseOutcome.matches m :=
  C4_help_version_exit_zero wCo0 ["prog", "--help"] helpDisplayText (Or.inl (by decide))

/-- C5: when the grammar engine reports a usage error, `parse` terminates
the process with exit code 1 and writes the program name, a colon, a
space, and the message (with the newline appended by `eprintln`) to
standard error; nothing goes to standard output and no `Matches` is
returned. -/
theorem C5_usage_error_exit_one (co : CoreOptions) (args : List String) (msg : String)
    (h : runEngine co.args co.hasVersion (args.drop 1) = EngineResult.usageError msg) :
    (co.parse args).1 = ParseOutcome.exit 1 "" (co.name ++ ": " ++ msg ++ "\n") ∧
    ∀ m : Matches, (co.parse args).1 ≠ ParseOutcome.matches m := by
  unfold CoreOptions.parse
  rw [h]
  simp [parseWith]

/-- Witness for C5 at a concrete input: a fresh builder parsing an
undeclared option token. -/
theorem C5_usage_error_exit_one_witness :
    (wCo0.parse ["prog", "--bogus"]).1 =
      ParseOutcome.exit 1 "" (wCo0.name ++ ": " ++ "unexpected argument --bogus" ++ "\n") ∧
    ∀ m : Matches, (wCo0.parse ["prog", "--bogus"]).1 ≠ ParseOutcome.matches m :=
  C5_usage_error_exit_one wCo0 ["prog", "--bogus"] "unexpected argument --bogus" (by decide)

/-- C8: registering a second option with the same non-empty short name
overwrites the alias-table entry: before the second registration the short
name mapped to the first canonical key, afterwards it maps to exactly the
later registration's canonical key. -/
theorem C8_duplicate_short_overwrites (co co1 co2 : CoreOptions)
    (s l1 l2 d1 d2 : String) (f1 f2 : ArgSpec → ArgSpec)
    (hs : s ≠ "") (hl1 : l1 ≠ "") (hl2 : l2 ≠ "")
    (h1 : co.optcommon s l1 d1 f1 = some co1)
    (h2 : co1.optcommon s l2 d2 f2 = some co2) :
    alookup s co1.short_to_long = some l1 ∧ alookup s co2.short_to_long = some l2 := by
  have t1 := optcommon_table _ _ _ _ _ _ h1
  have t2 := optcommon_table _ _ _ _ _ _ h2
  rw [if_pos ⟨hs, hl1⟩] at t1
  rw [if_pos ⟨hs, hl2⟩] at t2
  constructor
  · rw [t1, alookup_cons, if_pos rfl]
  · rw [t2, alookup_cons, if_pos rfl]

/-- Witness for C8 at a concrete input: short `a` registered first with
long `alpha`, then with long `beta`. -/
def wC8a : CoreOptions := (wCo0.optcommon "a" "alpha" "d1" (fun a => a)).getD wCo0

/-- Second registration state for the C8 witness. -/
def wC8b : CoreOptions := (wC8a.optcommon "a" "beta" "d2" (fun a => a)).getD wC8a

/-- Witness for C8: the table maps `a` to `alpha` after the first
registration and to `beta` after the second. -/
theorem C8_duplicate_short_overwrites_witness :
    alookup "a" wC8a.short_to_long = some "alpha" ∧
    alookup "a" wC8b.short_to_long = some "beta" :=
  C8_duplicate_short_overwrites wCo0 wC8a wC8b "a" "alpha" "beta" "d1" "d2"
    (fun a => a) (fun a => a) (by decide) (by decide) (by decide) (by decide) (by decide)

/-- C9: every `Matches` query resolves the queried name through the alias
table only when the name's UTF-8 byte length is exactly 1.  A name of any
other byte length — including a single multi-byte character — is used as
the canonical key unchanged no matter what the table holds, and a one-byte
name missing from the table also resolves to itself; a one-byte name found
in the table resolves to the mapped canonical key. -/
theorem C9_resolution_by_byte_length (free : List String) (inner : ArgMatches)
    (t : List (String × String)) (nm l : String) :
    (nm.utf8ByteSize ≠ 1 →
      (Matches.mk free inner t).opt_present nm = inner.is_present nm ∧
      (Matches.mk free inner t).opt_str nm = inner.value_of nm ∧
      (Matches.mk free inner t).opts_present [nm] = inner.is_present nm) ∧
    (nm.utf8ByteSize = 1 → alookup nm t = none →
      (Matches.mk free inner t).opt_present nm = inner.is_present nm ∧
      (Matches.mk free inner t).opt_str nm = inner.value_of nm ∧
      (Matches.mk free inner t).opts_present [nm] = inner.is_present nm) ∧
    (nm.utf8ByteSize = 1 → alookup nm t = some l →
      (Matches.mk free inner t).opt_present nm = inner.is_present l ∧
      (Matches.mk free inner t).opt_str nm = inner.value_of l ∧
      (Matches.mk free inner t).opts_present [nm] = inner.is_present l) := by
  refine ⟨fun h1 => ?_, fun h1 h2 => ?_, fun h1 h2 => ?_⟩ <;>
    simp [Matches.opt_present, Matches.opt_str, Matches.opts_present, Matches.convert_name, *]

/-- Witness for C9 at concrete inputs: the two-byte name `é` bypasses a
table that maps it, the one-byte name `a` resolves to itself against an
empty table, and resolves through a table that maps it. -/
theorem C9_resolution_by_byte_length_witness :
    ((Matches.mk [] ⟨["alpha"], []⟩ [("é", "alpha")]).opt_present "é" =
        (ArgMatches.mk ["alpha"] []).is_present "é" ∧
      (Matches.mk [] ⟨["alpha"], []⟩ [("é", "alpha")]).opt_str "é" =
        (ArgMatches.mk ["alpha"] []).value_of "é" ∧
      (Matches.mk [] ⟨["alpha"], []⟩ [("é", "alpha")]).opts_present ["é"] =
        (ArgMatches.mk ["alpha"] []).is_present "é") ∧
    ((Matches.mk [] ⟨["alpha"], []⟩ []).opt_present "a" =
        (ArgMatches.mk ["alpha"] []).is_present "a" ∧
      (Matches.mk [] ⟨["alpha"], []⟩ []).opt_str "a" =
        (ArgMatches.mk ["alpha"] []).value_of "a" ∧
      (Matches.mk [] ⟨["alpha"], []⟩ []).opts_present ["a"] =
        (ArgMatches.mk ["alpha"] []).is_present "a") ∧
    ((Matches.mk [] ⟨["alpha"], []⟩ [("a", "alpha")]).opt_present "a" =
        (ArgMatches.mk ["alpha"] []).is_present "alpha" ∧
      (Matches.mk [] ⟨["alpha"], []⟩ [("a", "alpha")]).opt_str "a" =
        (ArgMatches.mk ["alpha"] []).value_of "alpha" ∧
      (Matches.mk [] ⟨["alpha"], []⟩ [("a", "alpha")]).opts_present ["a"] =
        (ArgMatches.mk ["alpha"] []).is_present "alpha") :=
  ⟨(C9_resolution_by_byte_length [] ⟨["alpha"], []⟩ [("é", "alpha")] "é" "x").1 (by decide),
   (C9_resolution_by_byte_length [] ⟨["alpha"], []⟩ [] "a" "x").2.1 (by decide) (by decide),
   (C9_resolution_by_byte_length [] ⟨["alpha"], []⟩ [("a", "alpha")] "a" "alpha").2.2
     (by decide) (by decide)⟩

/-- C10: while a `Matches` produced by a successful `parse` shares the
reference-counted alias table (and any further registrations that touch
only the argument list have happened since), registering an option with
both a non-empty short and a non-empty long name panics at
`Rc::get_mut(..).unwrap()` (modelled as `none`): the table seen by the
live `Matches` is never mutated. -/
theorem C10_register_after_parse_panics (co co2 co3 : CoreOptions) (argv : List String)
    (m : Matches) (ops : List RegOp) (s l d : String) (f : ArgSpec → ArgSpec)
    (hparse : co.parse argv = (ParseOutcome.matches m, co2))
    (hops : runOps co2 ops = some co3)
    (hs : s ≠ "") (hl : l ≠ "") :
    co3.optcommon s l d f = none ∧ m.short_to_long = co.short_to_long := by
  obtain ⟨heng, htab, hfree, hco2⟩ := parse_matches _ _ _ _ hparse
  have hsh : co3.tableShared = co2.tableShared := runOps_shared _ _ _ hops
  have hne : co3.tableShared ≠ 0 := by
    rw [hsh, hco2]
    simp
  refine ⟨?_, htab⟩
  unfold CoreOptions.optcommon
  rw [if_pos hl, if_pos hs, if_pos hne]

/-- Matches value extracted for the C10 witness. -/
def wC10m : Matches :=
  match (wCo0.parse ["prog"]).1 with
  | ParseOutcome.matches m => m
  | _ => ⟨[], ⟨[], []⟩, []⟩

/-- Builder state after the C10 witness parse. -/
def wC10co : CoreOptions := (wCo0.parse ["prog"]).2

/-- Witness for C10 at a concrete input: parse an empty argument tail,
keep the Matches, then try to register short `x` with long `xx`. -/
theorem C10_register_after_parse_panics_witness :
    wC10co.optcommon "x" "xx" "d" (fun a => a) = none ∧
    wC10m.short_to_long = wCo0.short_to_long :=
  C10_register_after_parse_panics wCo0 wC10co wC10co ["prog"] wC10m [] "x" "xx" "d"
    (fun a => a) (by decide) (by decide) (by decide) (by decide)

/-- Builder with the single registration short `a` / long `alpha`, shared
by several witnesses. -/
def wRegCo : CoreOptions :=
  (runOps (CoreOptions.new wHt) [RegOp.flag "a" "alpha" "d"]).getD wCo0

/-- Matches produced by parsing `--alpha` against `wRegCo`. -/
def wRegM : Matches :=
  match (wRegCo.parse ["prog", "--alpha"]).1 with
  | ParseOutcome.matches m => m
  | _ => ⟨[], ⟨[], []⟩, []⟩

/-- Post-parse builder state behind `wRegM`. -/
def wRegCo2 : CoreOptions := (wRegCo.parse ["prog", "--alpha"]).2

/-- Builder with the single registration short `é` / long `edge`, used by
the C1 counterexample. -/
def wC1co : CoreOptions := (wCo0.optflag "é" "edge" "desc").getD wCo0

/-- Matches produced by parsing `--edge` against `wC1co`. -/
def wC1m : Matches :=
  match (wC1co.parse ["prog", "--edge"]).1 with
  | ParseOutcome.matches m => m
  | _ => ⟨[], ⟨[], []⟩, []⟩

/-- C1 counterexample: the option is registered with the non-empty short
name `é` (two UTF-8 bytes) and the non-empty long name `edge`, the parse
succeeds, yet querying by the short name disagrees with querying by the
long name, because `convert_name` consults the alias table only for
one-byte names. -/
theorem C1_queries_disagree_on_multibyte_short :
    wCo0.optflag "é" "edge" "desc" = some wC1co ∧
    (wC1co.parse ["prog", "--edge"]).1 = ParseOutcome.matches wC1m ∧
    alookup "é" wC1co.short_to_long = some "edge" ∧
    wC1m.opt_present "é" = false ∧
    wC1m.opt_present "edge" = true := by decide

/-- C1 amended: for an option registered with a non-empty short name `s`
whose UTF-8 encoding is exactly one byte and a non-empty long name `l` of
any other byte length, if no later registration re-registers `s` together
with a non-empty long name, then every Matches produced by a successful
parse satisfies `opt_present s = opt_present l` and
`opt_str s = opt_str l`: the one-byte short name resolves through the
alias table to the same canonical key as the long name. -/
theorem C1_short_long_queries_agree (ht : HelpText) (ops1 ops2 : List RegOp) (op : RegOp)
    (co co2 : CoreOptions) (argv : List String) (m : Matches) (s l : String)
    (hruns : runOps (CoreOptions.new ht) (ops1 ++ op :: ops2) = some co)
    (hopS : op.primaryShort = s) (hopL : op.primaryLong = l)
    (hs0 : s ≠ "") (hl0 : l ≠ "")
    (hlater : ∀ op2 ∈ ops2, ¬(op2.primaryShort = s ∧ op2.primaryLong ≠ ""))
    (hs1 : s.utf8ByteSize = 1) (hl1 : l.utf8ByteSize ≠ 1)
    (hparse : co.parse argv = (ParseOutcome.matches m, co2)) :
    m.opt_present s = m.opt_present l ∧ m.opt_str s = m.opt_str l := by
  obtain ⟨heng, htab, hfree, hco2⟩ := parse_matches _ _ _ _ hparse
  rw [runOps_append] at hruns
  cases hr1 : runOps (CoreOptions.new ht) ops1 with
  | none => rw [hr1] at hruns; exact absurd hruns (by simp)
  | some c1 =>
    rw [hr1] at hruns
    simp only [Option.some_bind, runOps] at hruns
    cases happ : applyOp c1 op with
    | none => rw [happ] at hruns; exact absurd hruns (by simp)
    | some c2 =>
      rw [happ] at hruns
      have ht2 := applyOp_table _ _ _ happ
      rw [hopS, hopL, if_pos ⟨hs0, hl0⟩] at ht2
      have hco := runOps_table ops2 _ _ hruns
      have hnone : alookup s (tablePairs ops2).reverse = none := by
        apply alookup_eq_none_of_forall
        intro p hp
        rw [List.mem_reverse] at hp
        obtain ⟨op2, hop2, hp1, hp2, hpne1, hpne2⟩ := tablePairs_mem _ _ hp
        intro hps
        exact hlater op2 hop2 ⟨by rw [← hp1, hps], hpne2⟩
      have hlookup : alookup s co.short_to_long = some l := by
        rw [hco, alookup_append_none _ _ _ hnone, ht2, alookup_cons, if_pos rfl]
      have hconvS : m.convert_name s = l := by
        unfold Matches.convert_name
        rw [if_neg (by simp [hs1]), htab, hlookup]
        rfl
      have hconvL : m.convert_name l = l := by
        unfold Matches.convert_name
        rw [if_pos hl1]
      constructor
      · unfold Matches.opt_present
        rw [hconvS, hconvL]
      · unfold Matches.opt_str
        rw [hconvS, hconvL]

/-- Witness for C1 at a concrete input: registration `a` / `alpha`, parse
of `--alpha`. -/
theorem C1_short_long_queries_agree_witness :
    wRegM.opt_present "a" = wRegM.opt_present "alpha" ∧
    wRegM.opt_str "a" = wRegM.opt_str "alpha" :=
  C1_short_long_queries_agree wHt [] [] (RegOp.flag "a" "alpha" "d") wRegCo wRegCo2
    ["prog", "--alpha"] wRegM "a" "alpha" (by decide) (by decide) (by decide) (by decide)
    (by decide) (by decide) (by decide) (by decide) (by decide)

/-- C2 counterexample: a short name registered without a long name
(`optflag "a" "" ..`) is not inserted into the alias table, and an alias
short name supplied through `optflags` is not inserted either — both
contradict the claim that every non-empty short name becomes a key of the
table. -/
theorem C2_short_names_missing_from_table :
    ((wCo0.optflag "a" "" "d").map (fun co => alookup "a" co.short_to_long)) = some none ∧
    ((wCo0.optflags ["a", "b"] ["alpha"] "d").map
        (fun co => alookup "b" co.short_to_long)) = some none := by decide

/-- C2 amended: after any successful sequence of registrations from a
fresh builder, the alias table consists exactly of the
(primary short, primary long) pairs of those registrations whose primary
short and primary long names are both non-empty, most recent first.  In
particular a short name is a key of the table (mapping to that
registration's long name, its canonical key) iff it was supplied as the
primary short of a registration that also had a non-empty primary long;
short names of long-less options and alias names supplied via `optflags`
are never inserted. -/
theorem C2_alias_table_contents (ht : HelpText) (ops : List RegOp) (co : CoreOptions)
    (h : runOps (CoreOptions.new ht) ops = some co) :
    co.short_to_long = (tablePairs ops).reverse :=
  runOps_table_from_new ht ops co h

/-- Registration sequence for the C2 witness: a short with a long, a short
without a long, and an `optflags` call with one alias short. -/
def wC2ops : List RegOp :=
  [RegOp.flag "a" "alpha" "d", RegOp.flag "b" "" "e", RegOp.flags ["x", "y"] ["ex"] "f"]

/-- Builder reached by the C2 witness registrations. -/
def wC2co : CoreOptions := (runOps (CoreOptions.new wHt) wC2ops).getD wCo0

/-- Witness for C2: the table holds exactly the two fully-named primary
pairs, latest first; `b` (no long name) and `y` (alias) are absent. -/
theorem C2_alias_table_contents_witness :
    wC2co.short_to_long = (tablePairs wC2ops).reverse :=
  C2_alias_table_contents wHt wC2ops wC2co (by decide)

/-! ### Name-tracking lemmas for the engine model -/

theorem addPresent_values (am : ArgMatches) (nm : String) :
    (am.addPresent nm).values = am.values := by
  unfold ArgMatches.addPresent
  split <;> rfl

theorem addVal_present (am : ArgMatches) (nm v : String) :
    (am.addVal nm v).present = am.present := rfl

theorem hasName_addPresent (am : ArgMatches) (nm n : String)
    (h : hasName n (am.addPresent nm).present = true) :
    n = nm ∨ hasName n am.present = true := by
  unfold ArgMatches.addPresent at h
  split at h
  · exact Or.inr h
  · rw [hasName_iff_mem] at h
    rcases List.mem_append.mp h with h1 | h1
    · exact Or.inr ((hasName_iff_mem _ _).mpr h1)
    · exact Or.inl (by simpa using h1)

theorem alookup_addValue_isSome (nm v n : String) :
    ∀ l : List (String × List String),
      (alookup n (addValue nm v l)).isSome = true →
      n = nm ∨ (alookup n l).isSome = true := by
  intro l
  induction l with
  | nil =>
    intro h
    simp only [addValue, alookup_cons] at h
    by_cases hk : nm = n
    · exact Or.inl hk.symm
    · rw [if_neg hk] at h
      simp [alookup_nil] at h
  | cons p rest ih =>
    obtain ⟨k, vs⟩ := p
    intro h
    by_cases hk : k = nm
    · rw [show addValue nm v ((k, vs) :: rest) = (k, vs ++ [v]) :: rest from by
        simp [addValue, hk]] at h
      rw [alookup_cons] at h
      by_cases hn : k = n
      · exact Or.inl (hn ▸ hk)
      · rw [if_neg hn] at h
        right
        rw [alookup_cons, if_neg hn]
        exact h
    · rw [show addValue nm v ((k, vs) :: rest) = (k, vs) :: addValue nm v rest from by
        simp [addValue, hk]] at h
      rw [alookup_cons] at h
      by_cases hn : k = n
      · right
        rw [alookup_cons, if_pos hn]
        rfl
      · rw [if_neg hn] at h
        rcases ih h with h1 | h1
        · exact Or.inl h1
        · right
          rw [alookup_cons, if_neg hn]
          exact h1

/-- All names occurring in an engine table come from the configured
argument names or the positional capture key `ARGS`. -/
def namesFrom (args : List ArgSpec) (am : ArgMatches) : Prop :=
  (∀ n, hasName n am.present = true → n = "ARGS" ∨ ∃ a ∈ args, n = a.name) ∧
  (∀ n, (alookup n am.values).isSome = true → n = "ARGS" ∨ ∃ a ∈ args, n = a.name)

theorem namesFrom_addPresent (args : List ArgSpec) (am : ArgMatches) (nm : String)
    (h : namesFrom args am) (hn : nm = "ARGS" ∨ ∃ a ∈ args, nm = a.name) :
    namesFrom args (am.addPresent nm) := by
  constructor
  · intro n h2
    rcases hasName_addPresent _ _ _ h2 with rfl | h3
    · exact hn
    · exact h.1 n h3
  · intro n h2
    rw [addPresent_values] at h2
    exact h.2 n h2

theorem namesFrom_addVal (args : List ArgSpec) (am : ArgMatches) (nm v : String)
    (h : namesFrom args am) (hn : nm = "ARGS" ∨ ∃ a ∈ args, nm = a.name) :
    namesFrom args (am.addVal nm v) := by
  constructor
  · intro n h2
    rw [addVal_present] at h2
    exact h.1 n h2
  · intro n h2
    rcases alookup_addValue_isSome nm v n am.values h2 with rfl | h3
    · exact hn
    · exact h.2 n h3

theorem namesFrom_record (args : List ArgSpec) (am : ArgMatches) (nm v : String)
    (h : namesFrom args am) (hn : nm = "ARGS" ∨ ∃ a ∈ args, nm = a.name) :
    namesFrom args (am.record nm v) :=
  namesFrom_addVal _ _ _ _ (namesFrom_addPresent _ _ _ h hn) hn

theorem findLong_mem (args : List ArgSpec) (nm : String) (a : ArgSpec)
    (h : findLong args nm = some a) : a ∈ args :=
  List.mem_of_find?_eq_some h

theorem findShort_mem (args : List ArgSpec) (nm : String) (a : ArgSpec)
    (h : findShort args nm = some a) : a ∈ args :=
  List.mem_of_find?_eq_some h

theorem handleOpt_cont (am : ArgMatches) (noMore : Bool) (t : String) (a : ArgSpec)
    (st2 : LoopSt) (h : handleOpt am noMore t a = StepRes.cont st2) :
    st2.am = am.addPresent a.name ∧ (st2.pending = none ∨ st2.pending = some a) := by
  unfold handleOpt at h
  split at h
  · exact absurd h (by simp)
  · split at h
    · cases h
      exact ⟨rfl, Or.inr rfl⟩
    · cases h
      exact ⟨rfl, Or.inl rfl⟩

theorem handleOpt_halt (am : ArgMatches) (noMore : Bool) (t : String) (a : ArgSpec)
    (r : EngineResult) (h : handleOpt am noMore t a = StepRes.halt r) :
    ∀ am2, r ≠ EngineResult.success am2 := by
  unfold handleOpt at h
  split at h
  · cases h
    intro am2 hc
    cases hc
  · split at h <;> exact absurd h (by simp)

theorem classify_cont (args : List ArgSpec) (hv : Bool) (am : ArgMatches) (noMore : Bool)
    (t : String) (st2 : LoopSt) (h : classify args hv am noMore t = StepRes.cont st2)
    (hnf : namesFrom args am) :
    namesFrom args st2.am ∧ ∀ a2, st2.pending = some a2 → a2 ∈ args := by
  unfold classify at h
  split at h
  · cases h
    exact ⟨namesFrom_record _ _ _ _ hnf (Or.inl rfl),
      fun a2 h2 => absurd h2 (by simp)⟩
  · split at h
    · cases h
      exact ⟨hnf, fun a2 h2 => absurd h2 (by simp)⟩
    · split at h
      · split at h
        case h_1 a heq =>
          obtain ⟨ham, hpend⟩ := handleOpt_cont _ _ _ _ _ h
          have hmem := findLong_mem _ _ _ heq
          refine ⟨?_, ?_⟩
          · rw [ham]
            exact namesFrom_addPresent _ _ _ hnf (Or.inr ⟨a, hmem, rfl⟩)
          · intro a2 h2
            rcases hpend with hp | hp
            · rw [hp] at h2
              exact absurd h2 (by simp)
            · rw [hp] at h2
              cases Option.some.inj h2
              exact hmem
        case h_2 heq =>
          split at h
          · exact absurd h (by simp)
          · split at h <;> exact absurd h (by simp)
      · split at h
        · split at h
          case h_1 a heq =>
            obtain ⟨ham, hpend⟩ := handleOpt_cont _ _ _ _ _ h
            have hmem := findShort_mem _ _ _ heq
            refine ⟨?_, ?_⟩
            · rw [ham]
              exact namesFrom_addPresent _ _ _ hnf (Or.inr ⟨a, hmem, rfl⟩)
            · intro a2 h2
              rcases hpend with hp | hp
              · rw [hp] at h2
                exact absurd h2 (by simp)
              · rw [hp] at h2
                cases Option.some.inj h2
                exact hmem
          case h_2 heq =>
            split at h
            · exact absurd h (by simp)
            · split at h <;> exact absurd h (by simp)
        · cases h
          exact ⟨namesFrom_record _ _ _ _ hnf (Or.inl rfl),
            fun a2 h2 => absurd h2 (by simp)⟩

theorem classify_halt (args : List ArgSpec) (hv : Bool) (am : ArgMatches) (noMore : Bool)
    (t : String) (r : EngineResult) (h : classify args hv am noMore t = StepRes.halt r) :
    ∀ am2, r ≠ EngineResult.success am2 := by
  unfold classify at h
  split at h
  · exact absurd h (by simp)
  · split at h
    · exact absurd h (by simp)
    · split at h
      · split at h
        case h_1 a heq => exact handleOpt_halt _ _ _ _ _ h
        case h_2 heq =>
          split at h
          · cases h
            intro am2 hc
            cases hc
          · split at h <;> (cases h; intro am2 hc; cases hc)
      · split at h
        · split at h
          case h_1 a heq => exact handleOpt_halt _ _ _ _ _ h
          case h_2 heq =>
            split at h
            · cases h
              intro am2 hc
              cases hc
            · split at h <;> (cases h; intro am2 hc; cases hc)
        · exact absurd h (by simp)

theorem step_cont (args : List ArgSpec) (hv : Bool) (st : LoopSt) (t : String)
    (st2 : LoopSt) (h : step args hv st t = StepRes.cont st2)
    (hnf : namesFrom args st.am) (hp : ∀ a, st.pending = some a → a ∈ args) :
    namesFrom args st2.am ∧ ∀ a2, st2.pending = some a2 → a2 ∈ args := by
  unfold step at h
  split at h
  case h_1 a heq =>
    have ha : a ∈ args := hp a heq
    split at h
    · split at h
      · exact classify_cont _ _ _ _ _ _ h hnf
      · cases h
        exact ⟨namesFrom_addVal _ _ _ _ hnf (Or.inr ⟨a, ha, rfl⟩),
          fun a2 h2 => absurd h2 (by simp)⟩
    · split at h
      · exact absurd h (by simp)
      · cases h
        exact ⟨namesFrom_addVal _ _ _ _ hnf (Or.inr ⟨a, ha, rfl⟩),
          fun a2 h2 => absurd h2 (by simp)⟩
  case h_2 heq =>
    exact classify_cont _ _ _ _ _ _ h hnf

theorem step_halt (args : List ArgSpec) (hv : Bool) (st : LoopSt) (t : String)
    (r : EngineResult) (h : step args hv st t = StepRes.halt r) :
    ∀ am2, r ≠ EngineResult.success am2 := by
  unfold step at h
  split at h
  case h_1 a heq =>
    split at h
    · split at h
      · exact classify_halt _ _ _ _ _ _ h
      · exact absurd h (by simp)
    · split at h
      · cases h
        intro am2 hc
        cases hc
      · exact absurd h (by simp)
  case h_2 heq =>
    exact classify_halt _ _ _ _ _ _ h

theorem engineLoop_names (args : List ArgSpec) (hv : Bool) :
    ∀ (argv : List String) (st : LoopSt) (am2 : ArgMatches),
      engineLoop args hv st argv = EngineResult.success am2 →
      namesFrom args st.am → (∀ a, st.pending = some a → a ∈ args) →
      namesFrom args am2 := by
  intro argv
  induction argv with
  | nil =>
    intro st am2 h hnf hp
    simp only [engineLoop] at h
    unfold finalize at h
    split at h
    case h_1 a heq =>
      split at h
      · cases h
        exact hnf
      · exact absurd h (by simp)
    case h_2 heq =>
      cases h
      exact hnf
  | cons t rest ih =>
    intro st am2 h hnf hp
    simp only [engineLoop] at h
    cases hs : step args hv st t with
    | halt r =>
      rw [hs] at h
      simp only at h
      exact absurd h (step_halt _ _ _ _ _ hs am2)
    | cont st2 =>
      rw [hs] at h
      simp only at h
      obtain ⟨hnf2, hp2⟩ := step_cont _ _ _ _ _ hs hnf hp
      exact ih st2 am2 h hnf2 hp2

/-- Matches produced by parsing one positional argument against a fresh
builder, used by the C6 counterexample. -/
def wC6m : Matches :=
  match (wCo0.parse ["prog", "a"]).1 with
  | ParseOutcome.matches m => m
  | _ => ⟨[], ⟨[], []⟩, []⟩

/-- C6 counterexample: the reserved positional-capture key `ARGS` was
never registered as any option's short name, long name, or alias, yet
after a successful parse that captured one positional argument,
`opt_present "ARGS"` is true and `opt_str "ARGS"` returns the first
positional argument — contradicting the claim that such names always
query as absent. -/
theorem C6_args_key_queries_present :
    (wCo0.parse ["prog", "a"]).1 = ParseOutcome.matches wC6m ∧
    wC6m.opt_present "ARGS" = true ∧
    wC6m.opt_str "ARGS" = some "a" := by decide

/-- C6 amended: for every name `x` never supplied to any registration as a
short name, long name, or alias, and different from the reserved
positional-capture key `ARGS`, every `Matches` produced by a successful
parse satisfies `opt_present x = false`, `opt_str x = none` (and likewise
through `opts_present`); querying an undeclared name never fails. -/
theorem C6_undeclared_names_absent (ht : HelpText) (ops : List RegOp) (co co2 : CoreOptions)
    (argv : List String) (m : Matches) (x : String)
    (hreg : runOps (CoreOptions.new ht) ops = some co)
    (hx : ∀ op ∈ ops, x ∉ op.namesOf)
    (hargs : x ≠ "ARGS")
    (hparse : co.parse argv = (ParseOutcome.matches m, co2)) :
    m.opt_present x = false ∧ m.opt_str x = none ∧ m.opts_present [x] = false := by
  obtain ⟨heng, htab, hfree, hco2⟩ := parse_matches _ _ _ _ hparse
  have hxtab : alookup x co.short_to_long = none := by
    rw [runOps_table_from_new ht ops co hreg]
    apply alookup_eq_none_of_forall
    intro p hp
    rw [List.mem_reverse] at hp
    obtain ⟨op, hop, hp1, hp2, hpne1, hpne2⟩ := tablePairs_mem _ _ hp
    intro hps
    exact hx op hop (by rw [← hps, hp1]; exact primaryShort_mem_namesOf op hpne1)
  have hconv : m.convert_name x = x := by
    unfold Matches.convert_name
    by_cases hb : x.utf8ByteSize ≠ 1
    · rw [if_pos hb]
    · rw [if_neg hb, htab, hxtab]
      rfl
  have hargnames : ∀ a ∈ co.args, a.name = "ARGS" ∨ ∃ op ∈ ops, a.name ∈ op.namesOf := by
    intro a ha
    rcases runOps_args ops _ _ hreg a ha with h1 | h2
    · left
      simp only [CoreOptions.new, List.mem_singleton] at h1
      rw [h1]
    · exact Or.inr h2
  have hnf : namesFrom co.args m.inner := by
    apply engineLoop_names co.args co.hasVersion (argv.drop 1) ⟨⟨[], []⟩, none, false⟩ m.inner heng
    · exact ⟨fun n hn => by simp [hasName] at hn, fun n hn => by simp [alookup_nil] at hn⟩
    · intro a ha
      exact absurd ha (by simp)
  have hxname : ¬(x = "ARGS" ∨ ∃ a ∈ co.args, x = a.name) := by
    rintro (rfl | ⟨a, ha, rfl⟩)
    · exact hargs rfl
    · rcases hargnames a ha with hn | ⟨op, hop, hmem⟩
      · exact hargs hn
      · exact hx op hop hmem
  have hx1 : hasName x m.inner.present = false := by
    cases hcase : hasName x m.inner.present with
    | false => rfl
    | true => exact absurd (hnf.1 x hcase) hxname
  have hx2 : alookup x m.inner.values = none := by
    cases hcase : alookup x m.inner.values with
    | none => rfl
    | some vs =>
      exact absurd (hnf.2 x (by rw [hcase]; rfl)) hxname
  refine ⟨?_, ?_, ?_⟩
  · unfold Matches.opt_present ArgMatches.is_present
    rw [hconv, hx1]
  · unfold Matches.opt_str ArgMatches.value_of
    rw [hconv, hx2]
    rfl
  · unfold Matches.opts_present ArgMatches.is_present
    simp only [List.any_cons, List.any_nil, Bool.or_false]
    rw [hconv, hx1]

/-- Witness for C6 at a concrete input: after registering `a` / `alpha`
and parsing `--alpha`, the never-registered name `zz` queries as
absent. -/
theorem C6_undeclared_names_absent_witness :
    wRegM.opt_present "zz" = false ∧ wRegM.opt_str "zz" = none ∧
    wRegM.opts_present ["zz"] = false :=
  C6_undeclared_names_absent wHt [RegOp.flag "a" "alpha" "d"] wRegCo wRegCo2
    ["prog", "--alpha"] wRegM "zz" (by decide) (by decide) (by decide) (by decide)

/-- Builder with the single registration `optmulti` short `m` / long
`multi`, used by C7. -/
def wC7co : CoreOptions := (wCo0.optmulti "m" "multi" "d" "VAL").getD wCo0

/-- One engine round for the C7 option: mark `multi` present and append
the occurrence value. -/
def c7g (am : ArgMatches) (w : String) : ArgMatches :=
  (am.addPresent "multi").addVal "multi" w

theorem c7g_values (am : ArgMatches) (w : String) :
    (c7g am w).values = addValue "multi" w am.values := by
  unfold c7g ArgMatches.addVal
  rw [addPresent_values]

theorem foldl_c7g_values : ∀ (ws : List String) (am : ArgMatches),
    (ws.foldl c7g am).values = ws.foldl (fun vals w => addValue "multi" w vals) am.values := by
  intro ws
  induction ws with
  | nil => intro am; rfl
  | cons w rest ih =>
    intro am
    rw [List.foldl_cons, List.foldl_cons, ih, c7g_values]

theorem alookup_addValue_self (k v : String) :
    ∀ l : List (String × List String),
      alookup k (addValue k v l) = some ((alookup k l).getD [] ++ [v]) := by
  intro l
  induction l with
  | nil => simp [addValue, alookup]
  | cons p rest ih =>
    obtain ⟨k2, vs⟩ := p
    by_cases hk : k2 = k
    · rw [show addValue k v ((k2, vs) :: rest) = (k2, vs ++ [v]) :: rest from by
        simp [addValue, hk], alookup_cons, if_pos hk, alookup_cons, if_pos hk]
      rfl
    · rw [show addValue k v ((k2, vs) :: rest) = (k2, vs) :: addValue k v rest from by
        simp [addValue, hk], alookup_cons, if_neg hk, alookup_cons, if_neg hk]
      exact ih

theorem c7_lookup (ws : List String) :
    ∀ (l : List (String × List String)) (cur : List String),
      alookup "multi" l = some cur →
      alookup "multi" (ws.foldl (fun vals w => addValue "multi" w vals) l) =
        some (cur ++ ws) := by
  induction ws with
  | nil =>
    intro l cur h
    simpa using h
  | cons w rest ih =>
    intro l cur h
    rw [List.foldl_cons]
    have hcur : alookup "multi" (addValue "multi" w l) = some (cur ++ [w]) := by
      rw [alookup_addValue_self, h]
      rfl
    have := ih (addValue "multi" w l) (cur ++ [w]) hcur
    simpa [List.append_assoc] using this

theorem C7_loop : ∀ (ws : List String) (am : ArgMatches),
    engineLoop wC7co.args wC7co.hasVersion ⟨am, none, false⟩
      (ws.flatMap (fun w => ["--multi", w])) =
    EngineResult.success (ws.foldl c7g am) := by
  intro ws
  induction ws with
  | nil => intro am; rfl
  | cons w rest ih =>
    intro am
    have hb : (w :: rest).flatMap (fun x => ["--multi", x]) =
        "--multi" :: w :: rest.flatMap (fun x => ["--multi", x]) := rfl
    rw [hb]
    have hstep : engineLoop wC7co.args wC7co.hasVersion ⟨am, none, false⟩
        ("--multi" :: w :: rest.flatMap (fun x => ["--multi", x])) =
        engineLoop wC7co.args wC7co.hasVersion ⟨c7g am w, none, false⟩
          (rest.flatMap (fun x => ["--multi", x])) := rfl
    rw [hstep, List.foldl_cons]
    exact ih (c7g am w)

/-- C7: for the `Repeated`-arity option `optmulti "m" "multi"` supplied
`n ≥ 1` times on the command line with values `v, vs...`, the parse
succeeds and the captured value sequence for the option's canonical key
equals the supplied values in encounter order; consequently `opt_str`
(queried by long or by short name) returns the first value. -/
theorem C7_repeated_values_in_order (v : String) (vs : List String) :
    ∃ (m : Matches) (co2 : CoreOptions),
      wC7co.parse ("prog" :: (v :: vs).flatMap (fun w => ["--multi", w])) =
        (ParseOutcome.matches m, co2) ∧
      alookup "multi" m.inner.values = some (v :: vs) ∧
      m.opt_str "multi" = some v ∧
      m.opt_str "m" = some v := by
  have hvals : alookup "multi" ((v :: vs).foldl c7g (⟨[], []⟩ : ArgMatches)).values
      = some (v :: vs) := by
    rw [foldl_c7g_values, List.foldl_cons]
    have h0 : alookup "multi" (addValue "multi" v (⟨[], []⟩ : ArgMatches).values)
        = some [v] := rfl
    have := c7_lookup vs _ _ h0
    simpa using this
  refine ⟨⟨(alookup "ARGS" ((v :: vs).foldl c7g ⟨[], []⟩).values).getD [],
      (v :: vs).foldl c7g ⟨[], []⟩, wC7co.short_to_long⟩,
    { wC7co with tableShared := wC7co.tableShared + 1 }, ?_, ?_, ?_, ?_⟩
  · unfold CoreOptions.parse
    have hdrop : ("prog" :: (v :: vs).flatMap (fun w => ["--multi", w])).drop 1 =
        (v :: vs).flatMap (fun w => ["--multi", w]) := rfl
    rw [hdrop]
    unfold runEngine
    rw [C7_loop (v :: vs) ⟨[], []⟩]
    rfl
  · exact hvals
  · unfold Matches.opt_str ArgMatches.value_of Matches.convert_name
    rw [if_pos (by decide : ("multi" : String).utf8ByteSize ≠ 1)]
    simp only
    rw [hvals]
    rfl
  · unfold Matches.opt_str ArgMatches.value_of Matches.convert_name
    rw [if_neg (by decide : ¬("m" : String).utf8ByteSize ≠ 1)]
    simp only
    rw [show (alookup "m" wC7co.short_to_long).getD "m" = "multi" from rfl]
    rw [hvals]
    rfl

end Coreopts
